import Mathlib

/-!
Shallow embedding of the raycasting renderer's core (src/main.py) over exact
rational arithmetic.

Modelling conventions:
* Python floats are modelled as `ℚ`; the float value `inf` (used by `raycast`
  for an axis with zero direction component) is modelled as `none` in
  `Option ℚ`, with `infLt`/`infLtQ`/`infAdd` mirroring IEEE comparisons and
  addition on `+inf`.
* The direction `(dx, dy) = (cos angle, sin angle)` is irrational in general,
  so `raycast` takes `dx dy` as explicit rational parameters and carries
  `angle` only as the payload stored in the returned `Ray`, exactly as the
  source stores it.  `cast_rays` likewise takes an oracle
  `dir : ℚ → ℚ × ℚ` standing for `angle ↦ (cos angle, sin angle)`.
* Python's floor division `x // size` and float modulo `x % size` are exact
  on rationals; `floorQ` and `fmod` below implement them (`floorQ` is proved
  equal to `Int.floor` in `floorQ_eq_floor`).  Python `int(...)` truncates
  toward zero, modelled by `truncQ`.
* The `while t < max_distance` loop of `raycast` terminates in the source
  because `t` strictly grows; the embedding uses explicit fuel, returning
  `RayResult.timeout` when the fuel runs out (`timeout` never occurs for
  sufficient fuel, which is proved where a claim needs termination).
* `TileMap.is_obstacle` in the source indexes `self._map[tile_y][tile_x]`
  only under the `inside` guard; for the rectangular grids required by the
  data model the indexing never fails, and the embedding uses `List.getD`
  (default 0), which agrees with the source there.  Consequently the
  `except IndexError` branch of `raycast` is dead code for rectangular
  grids and has no counterpart in the embedding.
* `draw_walls` computes `dist = pos.dist(ray.hit) * cos(ray.angle - angle)`,
  which involves `sqrt` and `cos`; the embedding abstracts this per-ray
  fisheye-corrected distance as an oracle `distOf : Ray → ℚ`, and abstracts
  `tan(fov / 2)` as a parameter `tanHalf : ℚ`.  Every claim about
  `draw_walls` is conditional on the value of the corrected distance, so
  this is faithful to the claims' content.

The `Rat` arithmetic operations are remarked semireducible locally so that
concrete witnesses can be checked by `decide`.
-/

attribute [local semireducible] Rat.add Rat.mul Rat.inv Rat.sub

namespace Raycasting

/-- Floor of a rational, computed on the normalized numerator/denominator
pair so that the kernel can evaluate it (`floorQ_eq_floor` identifies it with
`Int.floor`).  Python's `x // y` on floats is this floor division. -/
def floorQ (q : ℚ) : ℤ := q.num.fdiv q.den

/-- Python `int(...)` on a float: truncation toward zero. -/
def truncQ (q : ℚ) : ℤ := if 0 ≤ q then floorQ q else -floorQ (-q)

/-- Python float modulo `a % b` (result carries the divisor's sign):
`a - b * (a // b)`. -/
def fmod (a b : ℚ) : ℚ := a - b * floorQ (a / b)

/-- 2D point with exact rational coordinates (source class `Vec2`). -/
structure Vec2 where
  x : ℚ
  y : ℚ
deriving DecidableEq

/-- Which grid-line family a ray crossed (source enum `Side`). -/
inductive Side where
  | UP
  | DOWN
  | LEFT
  | RIGHT
deriving DecidableEq

/-- Source `Side.is_vertical`: true for `UP` and `DOWN`. -/
def Side.is_vertical : Side → Bool
  | .UP => true
  | .DOWN => true
  | _ => false

/-- Source `Side.is_horizontal`: true for `LEFT` and `RIGHT`. -/
def Side.is_horizontal : Side → Bool
  | .LEFT => true
  | .RIGHT => true
  | _ => false

/-- Occupancy grid with tile size and maximum traversal distance
(source class `TileMap`). -/
structure TileMap where
  map : List (List ℤ)
  size : ℚ
  max_distance : ℚ
deriving DecidableEq

/-- Source `TileMap.rows`: number of rows. -/
def TileMap.rows (tm : TileMap) : ℕ := tm.map.length

/-- Source `TileMap.cols`: length of the first row (the data model requires a
rectangular grid). -/
def TileMap.cols (tm : TileMap) : ℕ := (tm.map.headD []).length

/-- Source `TileMap.tile_coord`: floor division of world coordinates by the
tile size (Python `int(x // self.size)`). -/
def TileMap.tile_coord (tm : TileMap) (x y : ℚ) : ℤ × ℤ :=
  (floorQ (x / tm.size), floorQ (y / tm.size))

/-- Source `TileMap.inside` on already-tiled integer coordinates
(the `is_tiled=True` path, the only one exercised by the callers in scope). -/
def TileMap.inside (tm : TileMap) (tx ty : ℤ) : Bool :=
  decide (0 ≤ tx) && decide (tx < (tm.cols : ℤ)) &&
    decide (0 ≤ ty) && decide (ty < (tm.rows : ℤ))

/-- Source `TileMap.is_obstacle` with `is_tiled=True`: bounds-guarded lookup,
out-of-bounds is passable. -/
def TileMap.is_obstacle (tm : TileMap) (tx ty : ℤ) : Bool :=
  if tm.inside tx ty then ((tm.map.getD ty.toNat []).getD tx.toNat 0) != 0
  else false

/-- Source `TileMap.is_obstacle` with `is_tiled=False`: world coordinates are
converted through `tile_coord` first. -/
def TileMap.is_obstacle_world (tm : TileMap) (x y : ℚ) : Bool :=
  tm.is_obstacle (tm.tile_coord x y).1 (tm.tile_coord x y).2

/-- Hit record returned by `raycast` (source class `Ray`). -/
structure Ray where
  hit : Vec2
  tile_x : ℤ
  tile_y : ℤ
  angle : ℚ
  side : Side
deriving DecidableEq

/-- Result of one `raycast` call: `timeout` is the fuel-exhaustion marker of
the embedding (never produced with sufficient fuel), `miss` models Python
`None`, `hit` models a returned `Ray`. -/
inductive RayResult where
  | timeout
  | miss
  | hit (r : Ray)
deriving DecidableEq

/-- IEEE-style `<` where `none` stands for `+inf` (used for `t_v < t_h`). -/
def infLt : Option ℚ → Option ℚ → Bool
  | some a, some b => a < b
  | some _, none => true
  | none, _ => false

/-- IEEE-style `<` against a finite right operand (used for
`t < max_distance`). -/
def infLtQ : Option ℚ → ℚ → Bool
  | some a, b => a < b
  | none, _ => false

/-- Addition where `none` stands for `+inf` (used for `t_v += dt_v`). -/
def infAdd : Option ℚ → Option ℚ → Option ℚ
  | some a, some b => some (a + b)
  | _, _ => none

/-- Initial traversal parameter to the first grid line of one axis, from the
source's `t_v`/`t_h` setup: `((map_c + (d > 0)) * size - coord) / d` when
`d ≠ 0`, else the `+inf` sentinel. -/
def tInit (tm : TileMap) (coord d : ℚ) (mapc : ℤ) : Option ℚ :=
  if d ≠ 0 then some (((mapc + (if 0 < d then (1 : ℤ) else 0)) * tm.size - coord) / d)
  else none

/-- Per-tile traversal increment of one axis, from the source's
`dt_v`/`dt_h` setup: `size / |d|` when `d ≠ 0`, else the `+inf` sentinel. -/
def dtInit (tm : TileMap) (d : ℚ) : Option ℚ :=
  if d ≠ 0 then some (tm.size / |d|) else none

/-- The DDA loop of source `raycast` (lines 105-131).  Each iteration checks
`t < max_distance`, advances along the axis with the smaller accumulated
parameter, and tests the stepped tile; the hit point is `pos + t * (dx, dy)`.
`Option.getD 0` on the hit parameter is only reached with a `some` value
whenever `(dx, dy) ≠ (0, 0)`, which holds for every direction obtained from
an angle. -/
def raycastAux (tm : TileMap) (pos : Vec2) (dx dy angle : ℚ) (stepX stepY : ℤ)
    (dtV dtH : Option ℚ) (fuel : ℕ) (t tV tH : Option ℚ) (mapX mapY : ℤ) :
    RayResult :=
  match fuel with
  | 0 => .timeout
  | fuel + 1 =>
    if infLtQ t tm.max_distance then
      if infLt tV tH then
        let mapX' := mapX + stepX
        let side := if 0 < dx then Side.LEFT else Side.RIGHT
        if tm.is_obstacle mapX' mapY then
          .hit ⟨⟨pos.x + tV.getD 0 * dx, pos.y + tV.getD 0 * dy⟩, mapX', mapY, angle, side⟩
        else
          raycastAux tm pos dx dy angle stepX stepY dtV dtH fuel tV (infAdd tV dtV) tH mapX' mapY
      else
        let mapY' := mapY + stepY
        let side := if 0 < dy then Side.UP else Side.DOWN
        if tm.is_obstacle mapX mapY' then
          .hit ⟨⟨pos.x + tH.getD 0 * dx, pos.y + tH.getD 0 * dy⟩, mapX, mapY', angle, side⟩
        else
          raycastAux tm pos dx dy angle stepX stepY dtV dtH fuel tH tV (infAdd tH dtH) mapX mapY'
    else .miss

/-- Source `raycast(pos, angle, tilemap)`, with the direction
`(dx, dy) = (cos angle, sin angle)` passed exactly and `angle` carried as the
payload stored in the result. -/
def raycast (tm : TileMap) (pos : Vec2) (dx dy angle : ℚ) (fuel : ℕ) : RayResult :=
  let mapX := (tm.tile_coord pos.x pos.y).1
  let mapY := (tm.tile_coord pos.x pos.y).2
  let stepX : ℤ := if 0 < dx then 1 else -1
  let stepY : ℤ := if 0 < dy then 1 else -1
  raycastAux tm pos dx dy angle stepX stepY (dtInit tm dx) (dtInit tm dy) fuel
    (some 0) (tInit tm pos.x dx mapX) (tInit tm pos.y dy mapY) mapX mapY

/-- Companion of `raycastAux` returning the list of stepped tiles at which
the loop performs its occupancy check, in traversal order (used to express
what "the stepped tile index falls outside the grid" means). -/
def raycastTilesAux (tm : TileMap) (stepX stepY : ℤ) (dtV dtH : Option ℚ)
    (fuel : ℕ) (t tV tH : Option ℚ) (mapX mapY : ℤ) : List (ℤ × ℤ) :=
  match fuel with
  | 0 => []
  | fuel + 1 =>
    if infLtQ t tm.max_distance then
      if infLt tV tH then
        let mapX' := mapX + stepX
        (mapX', mapY) ::
          (if tm.is_obstacle mapX' mapY then []
           else raycastTilesAux tm stepX stepY dtV dtH fuel tV (infAdd tV dtV) tH mapX' mapY)
      else
        let mapY' := mapY + stepY
        (mapX, mapY') ::
          (if tm.is_obstacle mapX mapY' then []
           else raycastTilesAux tm stepX stepY dtV dtH fuel tH tV (infAdd tH dtH) mapX mapY')
    else []

/-- Stepped-tile trace of a full `raycast` call. -/
def raycastTrace (tm : TileMap) (pos : Vec2) (dx dy : ℚ) (fuel : ℕ) : List (ℤ × ℤ) :=
  let mapX := (tm.tile_coord pos.x pos.y).1
  let mapY := (tm.tile_coord pos.x pos.y).2
  let stepX : ℤ := if 0 < dx then 1 else -1
  let stepY : ℤ := if 0 < dy then 1 else -1
  raycastTilesAux tm stepX stepY (dtInit tm dx) (dtInit tm dy) fuel
    (some 0) (tInit tm pos.x dx mapX) (tInit tm pos.y dy mapY) mapX mapY

/-- The angle-stepping loop of source `cast_rays` (lines 134-150): one
`raycast` per iteration, `ray_angle += fov / rays_count` afterwards. -/
def castRaysAux (tm : TileMap) (pos : Vec2) (dir : ℚ → ℚ × ℚ) (step : ℚ)
    (fuel : ℕ) (count : ℕ) (rayAngle : ℚ) : List RayResult :=
  match count with
  | 0 => []
  | count + 1 =>
    raycast tm pos (dir rayAngle).1 (dir rayAngle).2 rayAngle fuel ::
      castRaysAux tm pos dir step fuel count (rayAngle + step)

/-- Source `cast_rays(player, tilemap, fov, rays_count)`: sweeps `count`
rays starting at `angle - fov / 2`, stepping by `fov / count`.  `dir` is the
oracle `a ↦ (cos a, sin a)`. -/
def cast_rays (tm : TileMap) (pos : Vec2) (angle fov : ℚ) (dir : ℚ → ℚ × ℚ)
    (count fuel : ℕ) : List RayResult :=
  castRaysAux tm pos dir (fov / count) fuel count (angle - fov / 2)

/-- Sub-tile texture offset of source `draw_walls` (lines 229-232):
`hit.x % size` when the side `is_vertical()`, else `hit.y % size`. -/
def texOffset (tm : TileMap) (r : Ray) : ℚ :=
  if r.side.is_vertical then fmod r.hit.x tm.size else fmod r.hit.y tm.size

/-- Texture column selection of source `draw_walls` (lines 234-235):
`int(offset / size * tex_w)` clamped into `[0, tex_w - 1]`. -/
def texColumn (tm : TileMap) (texW : ℤ) (r : Ray) : ℤ :=
  max 0 (min (texW - 1) (truncQ (texOffset tm r / tm.size * texW)))

/-- One drawn column of source `draw_walls`: screen x position `i * col_w`,
scaled blit width `int(col_w) + 1` and height `int(height)`, top-left y
coordinate, unclamped rational height, texture column, and shade level. -/
structure ColumnResult where
  screenX : ℚ
  widthPx : ℤ
  topY : ℚ
  height : ℚ
  heightPx : ℤ
  texX : ℤ
  shade : ℤ
deriving DecidableEq

/-- Body of the per-ray loop of source `draw_walls` (lines 217-244).  `none`
models `continue` (missed ray or non-positive corrected distance; the
embedding-only `timeout` is treated like a miss).  `distOf r` stands for the
fisheye-corrected distance `pos.dist(ray.hit) * cos(ray.angle - angle)`. -/
def projectColumn (tm : TileMap) (surfH : ℚ) (texW : ℤ) (colW projDist : ℚ)
    (distOf : Ray → ℚ) (i : ℕ) : RayResult → Option ColumnResult
  | .hit r =>
    let dist := distOf r
    if dist ≤ 0 then none
    else
      let height := min ((tm.size / dist) * projDist) 1000
      let y := (surfH - height) / 2
      let texX := texColumn tm texW r
      let t := min (dist / tm.max_distance) 1
      let shade := truncQ (255 * (1 - t))
      some ⟨(i : ℚ) * colW, truncQ colW + 1, y, height, truncQ height, texX, shade⟩
  | _ => none

/-- Indexed traversal of the ray list in source `draw_walls`
(`for i, ray in enumerate(rays)`). -/
def drawWallsAux (f : ℕ → RayResult → Option ColumnResult) (i : ℕ) :
    List RayResult → List (Option ColumnResult)
  | [] => []
  | r :: rest => f i r :: drawWallsAux f (i + 1) rest

/-- Source `draw_walls` (lines 202-244): per-frame column width
`surface_w / len(rays)` and projection-plane distance
`(surface_w / 2) / tan(fov / 2)` are computed once, then every ray is
projected in order.  `tanHalf` is the oracle for `tan(fov / 2)`. -/
def draw_walls (tm : TileMap) (surfW surfH : ℚ) (texW : ℤ) (tanHalf : ℚ)
    (distOf : Ray → ℚ) (rays : List RayResult) : List (Option ColumnResult) :=
  drawWallsAux (projectColumn tm surfH texW (surfW / rays.length) ((surfW / 2) / tanHalf) distOf)
    0 rays

/-- Concrete grid used by counterexample C1: a single obstacle tile, tile
size 1, max distance 10. -/
def tmC1 : TileMap := ⟨[[1]], 1, 10⟩

/-- Concrete grid used by counterexample C3: an open tile then an obstacle,
tile size 32, max distance 10. -/
def tmC3 : TileMap := ⟨[[0, 1]], 32, 10⟩

/-- Concrete grid used by counterexample C6: two obstacle tiles, tile size
32, max distance 100. -/
def tmC6 : TileMap := ⟨[[1, 1]], 32, 100⟩

/-- Concrete grid used by witnesses: a 3x3 border of walls around one open
center tile, tile size 32, max distance 256. -/
def tmW : TileMap := ⟨[[1, 1, 1], [1, 0, 1], [1, 1, 1]], 32, 256⟩

/-- Concrete ray used by the claim C2 witness: an `UP`-side hit (a
horizontal-grid-line crossing) at hit point `(8, 32)`. -/
def rC2 : Ray := ⟨⟨8, 32⟩, 0, 1, 0, .UP⟩

/-- Concrete corrected-distance oracle used by witnesses of the column
projector claims. -/
def distOfW : Ray → ℚ := fun r => r.hit.x - 48

/-- Concrete ray list used by witnesses of the column projector claims:
the first hit is behind the camera plane (corrected distance `-8`), the
second is in front (corrected distance `16`). -/
def raysW : List RayResult :=
  [.hit ⟨⟨40, 64⟩, 1, 2, 0, .UP⟩, .hit ⟨⟨64, 48⟩, 2, 1, 0, .LEFT⟩]

/-!
### Groundwork lemmas
-/

theorem floorQ_eq_floor (q : ℚ) : floorQ q = ⌊q⌋ := by
  rw [Rat.floor_def, floorQ, Int.fdiv_eq_ediv _ (Int.ofNat_nonneg q.den)]

theorem floorQ_le (q : ℚ) : (floorQ q : ℚ) ≤ q := by
  rw [floorQ_eq_floor]; exact Int.floor_le q

theorem lt_floorQ_add_one (q : ℚ) : q < (floorQ q : ℚ) + 1 := by
  rw [floorQ_eq_floor]; exact Int.lt_floor_add_one q

theorem truncQ_of_nonneg (q : ℚ) (h : 0 ≤ q) : truncQ q = ⌊q⌋ := by
  rw [truncQ, if_pos h, floorQ_eq_floor]

theorem fmod_nonneg (a b : ℚ) (hb : 0 < b) : 0 ≤ fmod a b := by
  have h1 : (floorQ (a / b) : ℚ) ≤ a / b := floorQ_le (a / b)
  have h2 : b * (floorQ (a / b) : ℚ) ≤ b * (a / b) := by
    exact mul_le_mul_of_nonneg_left h1 hb.le
  have h3 : b * (a / b) = a := by field_simp
  rw [fmod]; linarith

theorem fmod_lt (a b : ℚ) (hb : 0 < b) : fmod a b < b := by
  have h1 : a / b < (floorQ (a / b) : ℚ) + 1 := lt_floorQ_add_one (a / b)
  have h2 : b * (a / b) < b * ((floorQ (a / b) : ℚ) + 1) := by
    exact mul_lt_mul_of_pos_left h1 hb
  have h3 : b * (a / b) = a := by field_simp
  rw [fmod]; nlinarith

/-- Indexing `drawWallsAux` lands on the input ray at the shifted index. -/
theorem drawWallsAux_get (f : ℕ → RayResult → Option ColumnResult) (i j : ℕ)
    (rays : List RayResult) :
    (drawWallsAux f i rays)[j]? = (rays[j]?).map (f (i + j)) := by
  induction rays generalizing i j with
  | nil => simp [drawWallsAux]
  | cons r rest ih =>
    cases j with
    | zero => simp [drawWallsAux]
    | succ j =>
      have e : i + (j + 1) = (i + 1) + j := by omega
      rw [e, drawWallsAux]
      simpa using ih (i + 1) j

theorem drawWallsAux_length (f : ℕ → RayResult → Option ColumnResult) (i : ℕ)
    (rays : List RayResult) :
    (drawWallsAux f i rays).length = rays.length := by
  induction rays generalizing i with
  | nil => rfl
  | cons r rest ih => simp [drawWallsAux, ih]

/-- Each output column of `draw_walls` is the projection of the ray of the
same index, with the frame-constant column width and projection-plane
distance. -/
theorem draw_walls_get (tm : TileMap) (surfW surfH : ℚ) (texW : ℤ) (tanHalf : ℚ)
    (distOf : Ray → ℚ) (rays : List RayResult) (j : ℕ) :
    (draw_walls tm surfW surfH texW tanHalf distOf rays)[j]? =
      (rays[j]?).map
        (projectColumn tm surfH texW (surfW / rays.length) ((surfW / 2) / tanHalf) distOf j) := by
  rw [draw_walls, drawWallsAux_get]
  simp

/-!
### Claim theorems
-/

/-- C7: any query coordinate outside the grid extents is passable: with
already-tiled input, and with world coordinates that are converted through
`tile_coord` first, `is_obstacle` returns `false`. -/
theorem claim_C7 :
    (∀ (tm : TileMap) (tx ty : ℤ), tm.inside tx ty = false →
      tm.is_obstacle tx ty = false) ∧
    (∀ (tm : TileMap) (x y : ℚ),
      tm.inside (tm.tile_coord x y).1 (tm.tile_coord x y).2 = false →
      tm.is_obstacle_world x y = false) := by
  constructor
  · intro tm tx ty h
    simp [TileMap.is_obstacle, h]
  · intro tm x y h
    simp [TileMap.is_obstacle_world, TileMap.is_obstacle, h]

/-- Witness for C7 at concrete out-of-bounds queries on the 3x3 grid. -/
theorem claim_C7_witness :
    tmW.is_obstacle 5 1 = false ∧ tmW.is_obstacle_world (-7) 40 = false :=
  ⟨claim_C7.1 tmW 5 1 (by decide), claim_C7.2 tmW (-7) 40 (by decide)⟩

/-- C2: the sub-tile texture offset is `hit.y mod tileSize` when the hit
side is vertical and `hit.x mod tileSize` otherwise, where "vertical" is the
spec's vocabulary for the crossed grid-line family (section 4.2: vertical
crossing ⇒ `LEFT`/`RIGHT`; horizontal crossing ⇒ `UP`/`DOWN` — the source's
`Side.is_vertical()` method names the opposite pair, but its offset
assignment realises exactly this formula); and the selected texture column
equals `clamp(floor(offset / tileSize * textureWidth), 0, textureWidth - 1)`,
hence always lies within `[0, textureWidth - 1]`. -/
theorem claim_C2 (tm : TileMap) (texW : ℤ) (r : Ray)
    (hs : 0 < tm.size) (htw : 1 ≤ texW) :
    texOffset tm r =
      (if r.side = .LEFT ∨ r.side = .RIGHT then fmod r.hit.y tm.size
       else fmod r.hit.x tm.size) ∧
    texColumn tm texW r =
      max 0 (min (texW - 1) ⌊texOffset tm r / tm.size * (texW : ℚ)⌋) ∧
    0 ≤ texColumn tm texW r ∧ texColumn tm texW r ≤ texW - 1 := by
  refine ⟨?_, ?_⟩
  · cases hr : r.side <;> simp [texOffset, Side.is_vertical, hr]
  have h0 : 0 ≤ texOffset tm r := by
    rw [texOffset]
    split <;> exact fmod_nonneg _ _ hs
  have htw0 : (0 : ℚ) ≤ (texW : ℚ) := by exact_mod_cast le_trans zero_le_one htw
  have h1 : 0 ≤ texOffset tm r / tm.size * (texW : ℚ) :=
    mul_nonneg (div_nonneg h0 hs.le) htw0
  refine ⟨?_, le_max_left _ _, max_le (by omega) (min_le_left _ _)⟩
  rw [texColumn, truncQ_of_nonneg _ h1]

/-- Witness for C2 at the concrete `UP`-side (horizontal-crossing) ray:
the offset is taken from `hit.x`. -/
theorem claim_C2_witness :
    texOffset tmW rC2 =
      (if rC2.side = .LEFT ∨ rC2.side = .RIGHT then fmod rC2.hit.y tmW.size
       else fmod rC2.hit.x tmW.size) ∧
    texColumn tmW 8 rC2 =
      max 0 (min (8 - 1) ⌊texOffset tmW rC2 / tmW.size * ((8 : ℤ) : ℚ)⌋) ∧
    0 ≤ texColumn tmW 8 rC2 ∧ texColumn tmW 8 rC2 ≤ 8 - 1 :=
  claim_C2 tmW 8 rC2 (by decide) (by decide)

/-- C8: a column whose fisheye-corrected distance is non-positive is
skipped (its output slot is `none`), the output still has one slot per
input ray, and every other column is still computed from its own ray. -/
theorem claim_C8 (tm : TileMap) (surfW surfH : ℚ) (texW : ℤ) (tanHalf : ℚ)
    (distOf : Ray → ℚ) (rays : List RayResult) (i : ℕ) (r : Ray)
    (hi : rays[i]? = some (.hit r)) (hd : distOf r ≤ 0) :
    (draw_walls tm surfW surfH texW tanHalf distOf rays)[i]? = some none ∧
    (draw_walls tm surfW surfH texW tanHalf distOf rays).length = rays.length ∧
    (∀ j rj, rays[j]? = some rj →
      (draw_walls tm surfW surfH texW tanHalf distOf rays)[j]? =
        some (projectColumn tm surfH texW (surfW / rays.length)
          ((surfW / 2) / tanHalf) distOf j rj)) := by
  refine ⟨?_, ?_, ?_⟩
  · rw [draw_walls_get, hi]
    simp [projectColumn, if_pos hd]
  · rw [draw_walls]
    exact drawWallsAux_length _ _ _
  · intro j rj hj
    rw [draw_walls_get, hj]
    rfl

/-- Witness for C8: in `raysW` the first hit has corrected distance `-8`,
so its column is skipped while the list shape is preserved. -/
theorem claim_C8_witness :
    (draw_walls tmW 320 240 8 1 distOfW raysW)[0]? = some none ∧
    (draw_walls tmW 320 240 8 1 distOfW raysW).length = raysW.length ∧
    (∀ j rj, raysW[j]? = some rj →
      (draw_walls tmW 320 240 8 1 distOfW raysW)[j]? =
        some (projectColumn tmW 240 8 (320 / raysW.length)
          ((320 / 2) / 1) distOfW j rj)) :=
  claim_C8 tmW 320 240 8 1 distOfW raysW 0 ⟨⟨40, 64⟩, 1, 2, 0, .UP⟩
    (by decide) (by decide)

/-- C9: every drawn column has projected height
`min ((tileSize / perpendicularDistance) * projectionPlaneDistance) 1000`
with `projectionPlaneDistance = (surfaceWidth / 2) / tan(fov / 2)` computed
once per frame, and top coordinate `(surfaceHeight - height) / 2`. -/
theorem claim_C9 (tm : TileMap) (surfW surfH : ℚ) (texW : ℤ) (tanHalf : ℚ)
    (distOf : Ray → ℚ) (rays : List RayResult) (i : ℕ) (r : Ray)
    (hi : rays[i]? = some (.hit r)) (hd : 0 < distOf r) :
    ∃ c : ColumnResult,
      (draw_walls tm surfW surfH texW tanHalf distOf rays)[i]? = some (some c) ∧
      c.height = min ((tm.size / distOf r) * ((surfW / 2) / tanHalf)) 1000 ∧
      c.topY = (surfH - c.height) / 2 := by
  refine ⟨⟨(i : ℚ) * (surfW / rays.length), truncQ (surfW / rays.length) + 1,
      (surfH - min ((tm.size / distOf r) * ((surfW / 2) / tanHalf)) 1000) / 2,
      min ((tm.size / distOf r) * ((surfW / 2) / tanHalf)) 1000,
      truncQ (min ((tm.size / distOf r) * ((surfW / 2) / tanHalf)) 1000),
      texColumn tm texW r,
      truncQ (255 * (1 - min (distOf r / tm.max_distance) 1))⟩, ?_, rfl, rfl⟩
  rw [draw_walls_get, hi]
  simp only [Option.map_some', projectColumn]
  rw [if_neg (not_le.2 hd)]

/-- Witness for C9 at the second ray of `raysW` (corrected distance 16). -/
theorem claim_C9_witness :
    ∃ c : ColumnResult,
      (draw_walls tmW 320 240 8 1 distOfW raysW)[1]? = some (some c) ∧
      c.height = min ((tmW.size / distOfW ⟨⟨64, 48⟩, 2, 1, 0, .LEFT⟩) * ((320 / 2) / 1)) 1000 ∧
      c.topY = (240 - c.height) / 2 :=
  claim_C9 tmW 320 240 8 1 distOfW raysW 1 ⟨⟨64, 48⟩, 2, 1, 0, .LEFT⟩
    (by decide) (by decide)

/-- Index formula for the angle-stepping loop: the `i`-th cast happens at
`rayAngle + i * step`. -/
theorem castRaysAux_get (tm : TileMap) (pos : Vec2) (dir : ℚ → ℚ × ℚ)
    (step : ℚ) (fuel : ℕ) (n i : ℕ) (a : ℚ) (hi : i < n) :
    (castRaysAux tm pos dir step fuel n a)[i]? =
      some (raycast tm pos (dir (a + i * step)).1 (dir (a + i * step)).2
        (a + i * step) fuel) := by
  induction n generalizing a i with
  | zero => omega
  | succ n ih =>
    cases i with
    | zero =>
      simp [castRaysAux]
    | succ i =>
      have e : a + ((i : ℚ) + 1) * step = (a + step) + (i : ℚ) * step := by ring
      have h := ih i (a + step) (by omega)
      rw [castRaysAux]
      simp only [List.getElem?_cons_succ]
      rw [h]
      push_cast
      rw [e]

theorem castRaysAux_length (tm : TileMap) (pos : Vec2) (dir : ℚ → ℚ × ℚ)
    (step : ℚ) (fuel : ℕ) (n : ℕ) (a : ℚ) :
    (castRaysAux tm pos dir step fuel n a).length = n := by
  induction n generalizing a with
  | zero => rfl
  | succ n ih => simp [castRaysAux, ih]

/-- C5: `cast_rays` returns exactly `count` results in screen order, the
`i`-th being the ray cast at angle `heading - fov/2 + i * (fov/count)`. -/
theorem claim_C5 (tm : TileMap) (pos : Vec2) (angle fov : ℚ)
    (dir : ℚ → ℚ × ℚ) (count fuel : ℕ) (hc : 1 ≤ count) :
    (cast_rays tm pos angle fov dir count fuel).length = count ∧
    ∀ i : ℕ, i < count →
      (cast_rays tm pos angle fov dir count fuel)[i]? =
        some (raycast tm pos
          (dir (angle - fov / 2 + i * (fov / count))).1
          (dir (angle - fov / 2 + i * (fov / count))).2
          (angle - fov / 2 + i * (fov / count)) fuel) := by
  refine ⟨castRaysAux_length .., ?_⟩
  intro i hi
  exact castRaysAux_get tm pos dir (fov / count) fuel count i (angle - fov / 2) hi

/-- Witness for C5: three rays on the 3x3 grid with a concrete direction
oracle. -/
theorem claim_C5_witness :
    (cast_rays tmW ⟨48, 48⟩ 0 1 (fun _ => (1, 0)) 3 10).length = 3 ∧
    ∀ i : ℕ, i < 3 →
      (cast_rays tmW ⟨48, 48⟩ 0 1 (fun _ => (1, 0)) 3 10)[i]? =
        some (raycast tmW ⟨48, 48⟩
          ((fun (_ : ℚ) => ((1 : ℚ), (0 : ℚ))) (0 - 1 / 2 + i * (1 / 3))).1
          ((fun (_ : ℚ) => ((1 : ℚ), (0 : ℚ))) (0 - 1 / 2 + i * (1 / 3))).2
          (0 - 1 / 2 + i * (1 / 3)) 10) :=
  claim_C5 tmW ⟨48, 48⟩ 0 1 (fun _ => (1, 0)) 3 10 (by decide)

theorem infLtQ_some {t : Option ℚ} {m : ℚ} (h : infLtQ t m = true) :
    ∃ tq, t = some tq ∧ tq < m := by
  cases t with
  | none => simp [infLtQ] at h
  | some a =>
    refine ⟨a, rfl, ?_⟩
    simpa [infLtQ] using h

theorem infLt_some {a b : Option ℚ} (h : infLt a b = true) :
    ∃ aq, a = some aq ∧ ∀ bq, b = some bq → aq < bq := by
  cases a with
  | none => simp [infLt] at h
  | some aq =>
    refine ⟨aq, rfl, ?_⟩
    intro bq hb
    subst hb
    simpa [infLt] using h

theorem infLt_false_none {a b : Option ℚ} (h : infLt a b = false) (hb : b = none) :
    a = none := by
  subst hb
  cases a with
  | none => rfl
  | some aq => simp [infLt] at h

theorem infLt_false_le {a b : Option ℚ} (h : infLt a b = false) {aq bq : ℚ}
    (ha : a = some aq) (hb : b = some bq) : bq ≤ aq := by
  subst ha; subst hb
  have h1 : ¬(aq < bq) := by simpa [infLt] using h
  exact not_lt.1 h1

/-- The initial per-axis parameter of `raycast` is nonnegative: the first
grid line in the stepping direction is not behind the origin. -/
theorem tInit_nonneg (tm : TileMap) (c d : ℚ) (hs : 0 < tm.size) (q : ℚ)
    (hq : tInit tm c d (floorQ (c / tm.size)) = some q) : 0 ≤ q := by
  rw [tInit] at hq
  by_cases hd : d ≠ 0
  swap
  · rw [if_neg hd] at hq; exact absurd hq (by simp)
  rw [if_pos hd] at hq
  injection hq with hq
  subst hq
  have h0 : (floorQ (c / tm.size) : ℚ) ≤ c / tm.size := floorQ_le _
  rw [le_div_iff hs] at h0
  have h1 : c / tm.size < (floorQ (c / tm.size) : ℚ) + 1 := lt_floorQ_add_one _
  rw [div_lt_iff hs] at h1
  by_cases hdx : 0 < d
  · rw [if_pos hdx]
    apply div_nonneg _ hdx.le
    push_cast
    nlinarith
  · rw [if_neg hdx]
    have hd' : d < 0 := lt_of_le_of_ne (not_lt.1 hdx) hd
    rw [div_nonneg_iff]
    right
    refine ⟨?_, hd'.le⟩
    push_cast
    nlinarith

/-- The initial per-axis parameter of `raycast` is at most one full tile
crossing: the first grid line is within one tile of the origin. -/
theorem tInit_le_dt (tm : TileMap) (c d : ℚ) (hs : 0 < tm.size) (q : ℚ)
    (hq : tInit tm c d (floorQ (c / tm.size)) = some q) : q ≤ tm.size / |d| := by
  rw [tInit] at hq
  by_cases hd : d ≠ 0
  swap
  · rw [if_neg hd] at hq; exact absurd hq (by simp)
  rw [if_pos hd] at hq
  injection hq with hq
  subst hq
  have h0 : (floorQ (c / tm.size) : ℚ) ≤ c / tm.size := floorQ_le _
  rw [le_div_iff hs] at h0
  have h1 : c / tm.size < (floorQ (c / tm.size) : ℚ) + 1 := lt_floorQ_add_one _
  rw [div_lt_iff hs] at h1
  by_cases hdx : 0 < d
  · rw [if_pos hdx, abs_of_pos hdx, div_le_div_right hdx]
    push_cast
    nlinarith
  · have hd' : d < 0 := lt_of_le_of_ne (not_lt.1 hdx) hd
    rw [if_neg hdx, abs_of_neg hd', div_neg]
    have key : ((floorQ (c / tm.size) : ℚ) * tm.size - c) / d + tm.size / d
        = (((floorQ (c / tm.size) : ℚ) + 1) * tm.size - c) / d := by ring
    have hnum : 0 < ((floorQ (c / tm.size) : ℚ) + 1) * tm.size - c := by nlinarith
    have hneg : (((floorQ (c / tm.size) : ℚ) + 1) * tm.size - c) / d < 0 :=
      div_neg_of_pos_of_neg hnum hd'
    push_cast
    rw [add_zero]
    linarith

/-- Invariant analysis of the DDA loop: every hit lies at
`pos + t * (dx, dy)` for a nonnegative parameter `t` that exceeds
`max_distance` by less than one crossing increment of the hit axis (the
loop bound is checked at iteration entry, before the final crossing). -/
theorem raycastAux_hit_shape (tm : TileMap) (pos : Vec2) (dx dy angle : ℚ)
    (stepX stepY : ℤ) (dtV dtH : Option ℚ)
    (hdV : ∀ q, dtV = some q → 0 ≤ q) (hdH : ∀ q, dtH = some q → 0 ≤ q) :
    ∀ (fuel : ℕ) (t tV tH : Option ℚ) (mapX mapY : ℤ) (r : Ray),
    (∀ tq, t = some tq → 0 ≤ tq) →
    (∀ tv, tV = some tv → ∃ tq, t = some tq ∧ tq ≤ tv) →
    (∀ th, tH = some th → ∃ tq, t = some tq ∧ tq ≤ th) →
    (∀ tv, tV = some tv → ∃ tq dq, t = some tq ∧ dtV = some dq ∧ tv ≤ tq + dq) →
    (∀ th, tH = some th → ∃ tq dq, t = some tq ∧ dtH = some dq ∧ th ≤ tq + dq) →
    (tV = none ↔ dtV = none) →
    (tH = none ↔ dtH = none) →
    ¬(tV = none ∧ tH = none) →
    raycastAux tm pos dx dy angle stepX stepY dtV dtH fuel t tV tH mapX mapY = .hit r →
    ∃ tq : ℚ, 0 ≤ tq ∧ r.hit.x = pos.x + tq * dx ∧ r.hit.y = pos.y + tq * dy ∧
      ((r.side = .LEFT ∨ r.side = .RIGHT) →
        ∃ dq, dtV = some dq ∧ tq < tm.max_distance + dq) ∧
      ((r.side = .UP ∨ r.side = .DOWN) →
        ∃ dq, dtH = some dq ∧ tq < tm.max_distance + dq) := by
  intro fuel
  induction fuel with
  | zero =>
    intro t tV tH mapX mapY r _ _ _ _ _ _ _ _ h
    exact absurd h (by simp [raycastAux])
  | succ fuel ih =>
    intro t tV tH mapX mapY r ht0 htV htH hVub hHub hVlink hHlink hnn h
    rw [raycastAux] at h
    by_cases h1 : infLtQ t tm.max_distance
    swap
    · rw [if_neg h1] at h
      exact absurd h (by simp)
    rw [if_pos h1] at h
    obtain ⟨te, hte, htlt⟩ := infLtQ_some h1
    by_cases h2 : infLt tV tH
    · rw [if_pos h2] at h
      obtain ⟨tv, htv, hlt⟩ := infLt_some h2
      obtain ⟨tq1, htq1, hle1⟩ := htV tv htv
      rw [hte] at htq1
      injection htq1 with htq1
      subst htq1
      obtain ⟨tq2, dq, htq2, hdq, hub⟩ := hVub tv htv
      rw [hte] at htq2
      injection htq2 with htq2
      subst htq2
      have h0tv : 0 ≤ tv := le_trans (ht0 te hte) hle1
      by_cases h3 : tm.is_obstacle (mapX + stepX) mapY
      · simp only [h3, if_pos] at h
        subst htv
        cases h
        refine ⟨tv, h0tv, by simp, by simp, ?_, ?_⟩
        · intro _
          exact ⟨dq, hdq, lt_of_le_of_lt hub (add_lt_add_right htlt dq)⟩
        · intro hud
          rcases hud with hs' | hs' <;> by_cases hdx : 0 < dx <;> simp [hdx] at hs'
      · simp only [h3, Bool.false_eq_true, reduceIte] at h
        subst htv
        refine ih (some tv) (infAdd (some tv) dtV) tH (mapX + stepX) mapY r
          ?_ ?_ ?_ ?_ ?_ ?_ ?_ ?_ h
        · intro tq htq
          injection htq with htq
          subst htq
          exact h0tv
        · intro tv' htv'
          rw [hdq] at htv'
          simp only [infAdd, Option.some.injEq] at htv'
          subst htv'
          exact ⟨tv, rfl, by linarith [hdV dq hdq]⟩
        · intro th hth
          exact ⟨tv, rfl, le_of_lt (hlt th hth)⟩
        · intro tv' htv'
          rw [hdq] at htv'
          simp only [infAdd, Option.some.injEq] at htv'
          subst htv'
          exact ⟨tv, dq, rfl, hdq, le_refl _⟩
        · intro th hth
          obtain ⟨tq3, dq3, htq3, hdq3, hub3⟩ := hHub th hth
          rw [hte] at htq3
          injection htq3 with htq3
          subst htq3
          exact ⟨tv, dq3, rfl, hdq3, by linarith⟩
        · constructor
          · intro hnone
            cases hdtv : dtV with
            | none => rfl
            | some qq => rw [hdtv] at hnone; simp [infAdd] at hnone
          · intro hnone
            rw [hnone]
            rfl
        · exact hHlink
        · rintro ⟨hVn, hHn⟩
          rw [hdq] at hVn
          simp [infAdd] at hVn
    · rw [if_neg h2] at h
      have h2' : infLt tV tH = false := by simpa using h2
      cases htH0 : tH with
      | none =>
        exact absurd ⟨infLt_false_none h2' htH0, htH0⟩ hnn
      | some th =>
        obtain ⟨tq1, htq1, hle1⟩ := htH th htH0
        rw [hte] at htq1
        injection htq1 with htq1
        subst htq1
        obtain ⟨tq2, dq, htq2, hdq, hub⟩ := hHub th htH0
        rw [hte] at htq2
        injection htq2 with htq2
        subst htq2
        have h0th : 0 ≤ th := le_trans (ht0 te hte) hle1
        by_cases h3 : tm.is_obstacle mapX (mapY + stepY)
        · simp only [h3, if_pos] at h
          subst htH0
          cases h
          refine ⟨th, h0th, by simp, by simp, ?_, ?_⟩
          · intro hud
            rcases hud with hs' | hs' <;> by_cases hdy : 0 < dy <;> simp [hdy] at hs'
          · intro _
            exact ⟨dq, hdq, lt_of_le_of_lt hub (add_lt_add_right htlt dq)⟩
        · simp only [h3, Bool.false_eq_true, reduceIte] at h
          subst htH0
          refine ih (some th) tV (infAdd (some th) dtH) mapX (mapY + stepY) r
            ?_ ?_ ?_ ?_ ?_ ?_ ?_ ?_ h
          · intro tq htq
            injection htq with htq
            subst htq
            exact h0th
          · intro tv htv
            exact ⟨th, rfl, infLt_false_le h2' htv rfl⟩
          · intro th' hth'
            rw [hdq] at hth'
            simp only [infAdd, Option.some.injEq] at hth'
            subst hth'
            exact ⟨th, rfl, by linarith [hdH dq hdq]⟩
          · intro tv htv
            obtain ⟨tq3, dq3, htq3, hdq3, hub3⟩ := hVub tv htv
            rw [hte] at htq3
            injection htq3 with htq3
            subst htq3
            exact ⟨th, dq3, rfl, hdq3, by linarith⟩
          · intro th' hth'
            rw [hdq] at hth'
            simp only [infAdd, Option.some.injEq] at hth'
            subst hth'
            exact ⟨th, dq, rfl, hdq, le_refl _⟩
          · exact hVlink
          · constructor
            · intro hnone
              cases hdth : dtH with
              | none => rfl
              | some qq => rw [hdth] at hnone; simp [infAdd] at hnone
            · intro hnone
              rw [hnone]
              rfl
          · rintro ⟨hVn, hHn⟩
            rw [hdq] at hHn
            simp [infAdd] at hHn

/-- Top-level form of `raycastAux_hit_shape` for `raycast`: any returned hit
is the point `pos + t * (dx, dy)` for some `0 ≤ t`, and `t` exceeds
`max_distance` by less than `size / |component|` of the hit axis. -/
theorem raycast_hit_shape (tm : TileMap) (pos : Vec2) (dx dy angle : ℚ)
    (fuel : ℕ) (r : Ray) (hs : 0 < tm.size) (hnz : ¬(dx = 0 ∧ dy = 0))
    (h : raycast tm pos dx dy angle fuel = .hit r) :
    ∃ tq : ℚ, 0 ≤ tq ∧ r.hit.x = pos.x + tq * dx ∧ r.hit.y = pos.y + tq * dy ∧
      ((r.side = .LEFT ∨ r.side = .RIGHT) →
        dx ≠ 0 ∧ tq < tm.max_distance + tm.size / |dx|) ∧
      ((r.side = .UP ∨ r.side = .DOWN) →
        dy ≠ 0 ∧ tq < tm.max_distance + tm.size / |dy|) := by
  rw [raycast] at h
  have hdV : ∀ q, dtInit tm dx = some q → 0 ≤ q := by
    intro q hq
    rw [dtInit] at hq
    by_cases hd : dx ≠ 0
    · rw [if_pos hd] at hq
      injection hq with hq
      subst hq
      exact div_nonneg hs.le (abs_nonneg dx)
    · rw [if_neg hd] at hq
      exact absurd hq (by simp)
  have hdH : ∀ q, dtInit tm dy = some q → 0 ≤ q := by
    intro q hq
    rw [dtInit] at hq
    by_cases hd : dy ≠ 0
    · rw [if_pos hd] at hq
      injection hq with hq
      subst hq
      exact div_nonneg hs.le (abs_nonneg dy)
    · rw [if_neg hd] at hq
      exact absurd hq (by simp)
  have hmain := raycastAux_hit_shape tm pos dx dy angle
    (if 0 < dx then 1 else -1) (if 0 < dy then 1 else -1)
    (dtInit tm dx) (dtInit tm dy) hdV hdH fuel (some 0)
    (tInit tm pos.x dx (tm.tile_coord pos.x pos.y).1)
    (tInit tm pos.y dy (tm.tile_coord pos.x pos.y).2)
    (tm.tile_coord pos.x pos.y).1 (tm.tile_coord pos.x pos.y).2 r
    (by intro tq htq; injection htq with htq; subst htq; exact le_refl 0)
    (by
      intro tv htv
      exact ⟨0, rfl, tInit_nonneg tm pos.x dx hs tv htv⟩)
    (by
      intro th hth
      exact ⟨0, rfl, tInit_nonneg tm pos.y dy hs th hth⟩)
    (by
      intro tv htv
      have hd : dx ≠ 0 := by
        intro h0
        rw [tInit, if_neg (by simpa using h0)] at htv
        exact absurd htv (by simp)
      refine ⟨0, tm.size / |dx|, rfl, by rw [dtInit, if_pos hd], ?_⟩
      have := tInit_le_dt tm pos.x dx hs tv htv
      linarith)
    (by
      intro th hth
      have hd : dy ≠ 0 := by
        intro h0
        rw [tInit, if_neg (by simpa using h0)] at hth
        exact absurd hth (by simp)
      refine ⟨0, tm.size / |dy|, rfl, by rw [dtInit, if_pos hd], ?_⟩
      have := tInit_le_dt tm pos.y dy hs th hth
      linarith)
    (by rw [tInit, dtInit]; by_cases hd : dx ≠ 0 <;> simp [hd])
    (by rw [tInit, dtInit]; by_cases hd : dy ≠ 0 <;> simp [hd])
    (by
      rintro ⟨hVn, hHn⟩
      rw [tInit] at hVn hHn
      by_cases hd : dx ≠ 0
      · rw [if_pos hd] at hVn; exact absurd hVn (by simp)
      by_cases hd' : dy ≠ 0
      · rw [if_pos hd'] at hHn; exact absurd hHn (by simp)
      exact hnz ⟨by simpa using hd, by simpa using hd'⟩)
    h
  obtain ⟨tq, h0, hx, hy, hLR, hUD⟩ := hmain
  refine ⟨tq, h0, hx, hy, ?_, ?_⟩
  · intro hside
    obtain ⟨dq, hdq, hb⟩ := hLR hside
    rw [dtInit] at hdq
    by_cases hd : dx ≠ 0
    · rw [if_pos hd] at hdq
      injection hdq with hdq
      subst hdq
      exact ⟨hd, hb⟩
    · rw [if_neg hd] at hdq
      exact absurd hdq (by simp)
  · intro hside
    obtain ⟨dq, hdq, hb⟩ := hUD hside
    rw [dtInit] at hdq
    by_cases hd : dy ≠ 0
    · rw [if_pos hd] at hdq
      injection hdq with hdq
      subst hdq
      exact ⟨hd, hb⟩
    · rw [if_neg hd] at hdq
      exact absurd hdq (by simp)

/-- Any hit produced by the DDA loop passed the occupancy test at its tile. -/
theorem raycastAux_hit_obstacle (tm : TileMap) (pos : Vec2) (dx dy angle : ℚ)
    (stepX stepY : ℤ) (dtV dtH : Option ℚ) (fuel : ℕ) (t tV tH : Option ℚ)
    (mapX mapY : ℤ) (r : Ray)
    (h : raycastAux tm pos dx dy angle stepX stepY dtV dtH fuel t tV tH mapX mapY = .hit r) :
    tm.is_obstacle r.tile_x r.tile_y = true := by
  induction fuel generalizing t tV tH mapX mapY with
  | zero => exact absurd h (by simp [raycastAux])
  | succ fuel ih =>
    rw [raycastAux] at h
    by_cases h1 : infLtQ t tm.max_distance
    · rw [if_pos h1] at h
      by_cases h2 : infLt tV tH
      · rw [if_pos h2] at h
        by_cases h3 : tm.is_obstacle (mapX + stepX) mapY
        · simp only [h3, if_pos] at h
          cases h
          exact h3
        · simp only [h3, if_neg, Bool.false_eq_true, reduceIte] at h
          exact ih _ _ _ _ _ h
      · rw [if_neg h2] at h
        by_cases h3 : tm.is_obstacle mapX (mapY + stepY)
        · simp only [h3, if_pos] at h
          cases h
          exact h3
        · simp only [h3, Bool.false_eq_true, reduceIte] at h
          exact ih _ _ _ _ _ h
    · rw [if_neg h1] at h
      exact absurd h (by simp)

/-- The DDA tiles move monotonically away from the start tile along each
axis, so the loop never revisits (in particular never reports) the tile in
which the traversal started. -/
theorem raycastAux_hit_tile (tm : TileMap) (pos : Vec2) (dx dy angle : ℚ)
    (stepX stepY : ℤ) (dtV dtH : Option ℚ) (x0 y0 : ℤ)
    (hsx : stepX = 1 ∨ stepX = -1) (hsy : stepY = 1 ∨ stepY = -1) :
    ∀ (fuel : ℕ) (t tV tH : Option ℚ) (mapX mapY : ℤ) (r : Ray),
    (stepX = 1 → x0 ≤ mapX) → (stepX = -1 → mapX ≤ x0) →
    (stepY = 1 → y0 ≤ mapY) → (stepY = -1 → mapY ≤ y0) →
    raycastAux tm pos dx dy angle stepX stepY dtV dtH fuel t tV tH mapX mapY = .hit r →
    (r.tile_x, r.tile_y) ≠ (x0, y0) := by
  intro fuel
  induction fuel with
  | zero =>
    intro t tV tH mapX mapY r _ _ _ _ h
    exact absurd h (by simp [raycastAux])
  | succ fuel ih =>
    intro t tV tH mapX mapY r hx1 hx2 hy1 hy2 h
    rw [raycastAux] at h
    by_cases h1 : infLtQ t tm.max_distance
    swap
    · rw [if_neg h1] at h
      exact absurd h (by simp)
    rw [if_pos h1] at h
    by_cases h2 : infLt tV tH
    · rw [if_pos h2] at h
      by_cases h3 : tm.is_obstacle (mapX + stepX) mapY
      · simp only [h3, if_pos] at h
        cases h
        simp only [ne_eq, Prod.mk.injEq, not_and]
        intro hxx
        exfalso
        rcases hsx with hsx | hsx <;> subst hsx
        · have := hx1 rfl
          omega
        · have := hx2 rfl
          omega
      · simp only [h3, Bool.false_eq_true, reduceIte] at h
        refine ih tV (infAdd tV dtV) tH (mapX + stepX) mapY r ?_ ?_ hy1 hy2 h
        · intro hstep
          have := hx1 hstep
          omega
        · intro hstep
          have := hx2 hstep
          omega
    · rw [if_neg h2] at h
      by_cases h3 : tm.is_obstacle mapX (mapY + stepY)
      · simp only [h3, if_pos] at h
        cases h
        simp only [ne_eq, Prod.mk.injEq, not_and]
        intro hxx hyy
        rcases hsy with hsy | hsy <;> subst hsy
        · have := hy1 rfl
          omega
        · have := hy2 rfl
          omega
      · simp only [h3, Bool.false_eq_true, reduceIte] at h
        refine ih tH tV (infAdd tH dtH) mapX (mapY + stepY) r hx1 hx2 ?_ ?_ h
        · intro hstep
          have := hy1 hstep
          omega
        · intro hstep
          have := hy2 hstep
          omega

/-- C3 counterexample: with `max_distance = 10`, a ray from the tile center
`(16, 16)` pointed at an obstacle one crossing away (16 units) still
returns a hit, whose Euclidean distance from the origin (16, along the
x axis since `dy = 0`) exceeds the maximum traversal distance. -/
theorem claim_C3_cex :
    raycast tmC3 ⟨16, 16⟩ 1 0 0 5 = .hit ⟨⟨32, 16⟩, 1, 0, 0, .LEFT⟩ ∧
    tmC3.max_distance < |(32 : ℚ) - 16| := by
  decide

/-- C3 (amended): the loop bound `t < max_distance` is checked at iteration
entry, so a returned hit may overshoot: every hit of `raycast` lies at
`pos + t * (dx, dy)` with `0 ≤ t < max_distance + size / |component|` of the
hit axis (one crossing increment), rather than `t ≤ max_distance` as the
claim states. -/
theorem claim_C3_amended (tm : TileMap) (pos : Vec2) (dx dy angle : ℚ)
    (fuel : ℕ) (r : Ray) (hs : 0 < tm.size) (hnz : ¬(dx = 0 ∧ dy = 0))
    (h : raycast tm pos dx dy angle fuel = .hit r) :
    ∃ tq : ℚ, 0 ≤ tq ∧ r.hit.x = pos.x + tq * dx ∧ r.hit.y = pos.y + tq * dy ∧
      ((r.side = .LEFT ∨ r.side = .RIGHT) →
        dx ≠ 0 ∧ tq < tm.max_distance + tm.size / |dx|) ∧
      ((r.side = .UP ∨ r.side = .DOWN) →
        dy ≠ 0 ∧ tq < tm.max_distance + tm.size / |dy|) :=
  raycast_hit_shape tm pos dx dy angle fuel r hs hnz h

/-- Witness for the amended C3 at the concrete overshooting hit of `tmC3`. -/
theorem claim_C3_amended_witness :
    ∃ tq : ℚ, 0 ≤ tq ∧
      (Ray.mk ⟨32, 16⟩ 1 0 0 .LEFT).hit.x = (16 : ℚ) + tq * 1 ∧
      (Ray.mk ⟨32, 16⟩ 1 0 0 .LEFT).hit.y = (16 : ℚ) + tq * 0 ∧
      (((Ray.mk ⟨32, 16⟩ 1 0 0 .LEFT).side = .LEFT ∨
        (Ray.mk ⟨32, 16⟩ 1 0 0 .LEFT).side = .RIGHT) →
        (1 : ℚ) ≠ 0 ∧ tq < tmC3.max_distance + tmC3.size / |(1 : ℚ)|) ∧
      (((Ray.mk ⟨32, 16⟩ 1 0 0 .LEFT).side = .UP ∨
        (Ray.mk ⟨32, 16⟩ 1 0 0 .LEFT).side = .DOWN) →
        (0 : ℚ) ≠ 0 ∧ tq < tmC3.max_distance + tmC3.size / |(0 : ℚ)|) :=
  claim_C3_amended tmC3 ⟨16, 16⟩ 1 0 0 5 ⟨⟨32, 16⟩, 1, 0, 0, .LEFT⟩
    (by decide) (by decide) (by decide)

/-- C6 counterexample: an origin exactly on a grid line inside an obstacle
tile: `raycast` returns a hit at the crossing point equal to the origin
itself, i.e. at traversal distance zero, contradicting the claim's "strictly
positive traversal distance, never at distance zero". -/
theorem claim_C6_cex :
    tmC6.tile_coord 32 16 = (1, 0) ∧
    tmC6.is_obstacle 1 0 = true ∧
    raycast tmC6 ⟨32, 16⟩ (-1) 0 0 10 = .hit ⟨⟨32, 16⟩, 0, 0, 0, .RIGHT⟩ := by
  decide

/-- C6 (amended): for a ray whose origin lies inside an obstacle tile, the
first occupancy check happens only after the first grid-line crossing, so
the returned hit never reports the origin tile itself, and lies at
`pos + t * (dx, dy)` for a nonnegative `t` (which is zero exactly when the
origin sits on the crossed grid line, rather than always strictly
positive as the claim states). -/
theorem claim_C6_amended (tm : TileMap) (pos : Vec2) (dx dy angle : ℚ)
    (fuel : ℕ) (r : Ray) (hs : 0 < tm.size) (hnz : ¬(dx = 0 ∧ dy = 0))
    (hobs : tm.is_obstacle (tm.tile_coord pos.x pos.y).1 (tm.tile_coord pos.x pos.y).2 = true)
    (h : raycast tm pos dx dy angle fuel = .hit r) :
    (r.tile_x, r.tile_y) ≠ tm.tile_coord pos.x pos.y ∧
    ∃ tq : ℚ, 0 ≤ tq ∧ r.hit.x = pos.x + tq * dx ∧ r.hit.y = pos.y + tq * dy := by
  constructor
  · have htile := raycastAux_hit_tile tm pos dx dy angle
      (if 0 < dx then 1 else -1) (if 0 < dy then 1 else -1)
      (dtInit tm dx) (dtInit tm dy)
      (tm.tile_coord pos.x pos.y).1 (tm.tile_coord pos.x pos.y).2
      (by split <;> simp) (by split <;> simp) fuel (some 0)
      (tInit tm pos.x dx (tm.tile_coord pos.x pos.y).1)
      (tInit tm pos.y dy (tm.tile_coord pos.x pos.y).2)
      (tm.tile_coord pos.x pos.y).1 (tm.tile_coord pos.x pos.y).2 r
      (fun _ => le_refl _) (fun _ => le_refl _) (fun _ => le_refl _) (fun _ => le_refl _)
      (by rw [raycast] at h; exact h)
    simpa using htile
  · obtain ⟨tq, h0, hx, hy, _, _⟩ :=
      raycast_hit_shape tm pos dx dy angle fuel r hs hnz h
    exact ⟨tq, h0, hx, hy⟩

/-- Witness for the amended C6: origin strictly inside the obstacle tile
`(1, 0)` of `tmC6`; the returned hit is on the neighbouring tile. -/
theorem claim_C6_amended_witness :
    ((0 : ℤ), (0 : ℤ)) ≠ tmC6.tile_coord 40 16 ∧
    ∃ tq : ℚ, 0 ≤ tq ∧ (32 : ℚ) = 40 + tq * (-1) ∧ (16 : ℚ) = 16 + tq * 0 :=
  claim_C6_amended tmC6 ⟨40, 16⟩ (-1) 0 0 10 ⟨⟨32, 16⟩, 0, 0, 0, .RIGHT⟩
    (by decide) (by decide) (by decide) (by decide)

/-- C1 counterexample: on a rectangular grid with the origin outside the
map, the first stepped tile `(-1, 0)` is out of bounds, yet the traversal
does not stop there: it keeps stepping and returns a hit on the in-bounds
obstacle tile, instead of the immediate "no hit" the claim requires. -/
theorem claim_C1_cex :
    raycastTrace tmC1 ⟨-3/2, 1/2⟩ 1 0 10 = [(-1, 0), (0, 0)] ∧
    tmC1.inside (-1) 0 = false ∧
    raycast tmC1 ⟨-3/2, 1/2⟩ 1 0 0 10 = .hit ⟨⟨0, 1/2⟩, 0, 0, 0, .LEFT⟩ := by
  decide

/-- C1 (amended): a stepped tile index outside the grid bounds does not end
the traversal; the out-of-bounds tile is treated as passable and stepping
continues (never wrapping), so every hit `raycast` ever returns is at a tile
strictly inside the grid that passed the occupancy test. -/
theorem claim_C1_amended (tm : TileMap) (pos : Vec2) (dx dy angle : ℚ)
    (fuel : ℕ) (r : Ray)
    (h : raycast tm pos dx dy angle fuel = .hit r) :
    tm.inside r.tile_x r.tile_y = true ∧ tm.is_obstacle r.tile_x r.tile_y = true := by
  have hob : tm.is_obstacle r.tile_x r.tile_y = true :=
    raycastAux_hit_obstacle tm pos dx dy angle _ _ _ _ fuel _ _ _ _ _ r h
  refine ⟨?_, hob⟩
  by_cases hin : tm.inside r.tile_x r.tile_y
  · exact hin
  · rw [TileMap.is_obstacle, if_neg (by simp [hin])] at hob
    exact absurd hob (by simp)

/-- Witness for the amended C1: a concrete hit on the 3x3 grid lands on an
inside obstacle tile. -/
theorem claim_C1_amended_witness :
    tmW.inside 2 1 = true ∧ tmW.is_obstacle 2 1 = true :=
  claim_C1_amended tmW ⟨48, 48⟩ 1 0 0 10 ⟨⟨64, 48⟩, 2, 1, 0, .LEFT⟩ (by decide)

/-- A vertical crossing lands on a vertical grid line and a horizontal
crossing on a horizontal grid line: the per-axis parameters keep
`pos + t * d` on integer multiples of the tile size. -/
theorem raycastAux_hit_gridline (tm : TileMap) (pos : Vec2) (dx dy angle : ℚ)
    (stepX stepY : ℤ) (dtV dtH : Option ℚ)
    (hdV : ∀ q, dtV = some q → ∃ k : ℤ, q * dx = k * tm.size)
    (hdH : ∀ q, dtH = some q → ∃ k : ℤ, q * dy = k * tm.size) :
    ∀ (fuel : ℕ) (t tV tH : Option ℚ) (mapX mapY : ℤ) (r : Ray),
    (∀ tv, tV = some tv → ∃ m : ℤ, pos.x + tv * dx = m * tm.size) →
    (∀ th, tH = some th → ∃ m : ℤ, pos.y + th * dy = m * tm.size) →
    (tV = none ↔ dtV = none) →
    (tH = none ↔ dtH = none) →
    ¬(tV = none ∧ tH = none) →
    raycastAux tm pos dx dy angle stepX stepY dtV dtH fuel t tV tH mapX mapY = .hit r →
    ((r.side = .LEFT ∨ r.side = .RIGHT) → ∃ m : ℤ, r.hit.x = m * tm.size) ∧
    ((r.side = .UP ∨ r.side = .DOWN) → ∃ m : ℤ, r.hit.y = m * tm.size) := by
  intro fuel
  induction fuel with
  | zero =>
    intro t tV tH mapX mapY r _ _ _ _ _ h
    exact absurd h (by simp [raycastAux])
  | succ fuel ih =>
    intro t tV tH mapX mapY r hmV hmH hVlink hHlink hnn h
    rw [raycastAux] at h
    by_cases h1 : infLtQ t tm.max_distance
    swap
    · rw [if_neg h1] at h
      exact absurd h (by simp)
    rw [if_pos h1] at h
    by_cases h2 : infLt tV tH
    · rw [if_pos h2] at h
      obtain ⟨tv, htv, _⟩ := infLt_some h2
      have hdVs : ∃ dq, dtV = some dq := by
        cases hdtv : dtV with
        | none => rw [htv] at hVlink; simp [hdtv] at hVlink
        | some dq => exact ⟨dq, rfl⟩
      obtain ⟨dq, hdq⟩ := hdVs
      obtain ⟨m, hm⟩ := hmV tv htv
      by_cases h3 : tm.is_obstacle (mapX + stepX) mapY
      · simp only [h3, if_pos] at h
        subst htv
        cases h
        refine ⟨?_, ?_⟩
        · intro _
          exact ⟨m, by simpa using hm⟩
        · intro hud
          rcases hud with hs' | hs' <;> by_cases hdx : 0 < dx <;> simp [hdx] at hs'
      · simp only [h3, Bool.false_eq_true, reduceIte] at h
        subst htv
        refine ih (some tv) (infAdd (some tv) dtV) tH (mapX + stepX) mapY r ?_ hmH ?_ hHlink ?_ h
        · intro tv' htv'
          rw [hdq] at htv'
          simp only [infAdd, Option.some.injEq] at htv'
          subst htv'
          obtain ⟨k, hk⟩ := hdV dq hdq
          exact ⟨m + k, by push_cast; nlinarith [hm, hk]⟩
        · rw [hdq]
          simp [infAdd]
        · rintro ⟨hVn, _⟩
          rw [hdq] at hVn
          simp [infAdd] at hVn
    · rw [if_neg h2] at h
      have h2' : infLt tV tH = false := by simpa using h2
      cases htH0 : tH with
      | none =>
        exact absurd ⟨infLt_false_none h2' htH0, htH0⟩ hnn
      | some th =>
        have hdHs : ∃ dq, dtH = some dq := by
          cases hdth : dtH with
          | none => rw [htH0] at hHlink; simp [hdth] at hHlink
          | some dq => exact ⟨dq, rfl⟩
        obtain ⟨dq, hdq⟩ := hdHs
        obtain ⟨m, hm⟩ := hmH th htH0
        by_cases h3 : tm.is_obstacle mapX (mapY + stepY)
        · simp only [h3, if_pos] at h
          subst htH0
          cases h
          refine ⟨?_, ?_⟩
          · intro hud
            rcases hud with hs' | hs' <;> by_cases hdy : 0 < dy <;> simp [hdy] at hs'
          · intro _
            exact ⟨m, by simpa using hm⟩
        · simp only [h3, Bool.false_eq_true, reduceIte] at h
          subst htH0
          refine ih (some th) tV (infAdd (some th) dtH) mapX (mapY + stepY) r hmV ?_ hVlink ?_ ?_ h
          · intro th' hth'
            rw [hdq] at hth'
            simp only [infAdd, Option.some.injEq] at hth'
            subst hth'
            obtain ⟨k, hk⟩ := hdH dq hdq
            exact ⟨m + k, by push_cast; nlinarith [hm, hk]⟩
          · rw [hdq]
            simp [infAdd]
          · rintro ⟨_, hHn⟩
            rw [hdq] at hHn
            simp [infAdd] at hHn

/-- C10: under exact arithmetic every returned hit point lies exactly on the
grid line it crossed: `hit.x` is an integer multiple of the tile size for a
`LEFT`/`RIGHT` hit, `hit.y` for an `UP`/`DOWN` hit. -/
theorem claim_C10 (tm : TileMap) (pos : Vec2) (dx dy angle : ℚ) (fuel : ℕ)
    (r : Ray) (hnz : ¬(dx = 0 ∧ dy = 0))
    (h : raycast tm pos dx dy angle fuel = .hit r) :
    ((r.side = .LEFT ∨ r.side = .RIGHT) → ∃ m : ℤ, r.hit.x = m * tm.size) ∧
    ((r.side = .UP ∨ r.side = .DOWN) → ∃ m : ℤ, r.hit.y = m * tm.size) := by
  rw [raycast] at h
  refine raycastAux_hit_gridline tm pos dx dy angle
    (if 0 < dx then 1 else -1) (if 0 < dy then 1 else -1)
    (dtInit tm dx) (dtInit tm dy) ?_ ?_ fuel (some 0)
    (tInit tm pos.x dx (tm.tile_coord pos.x pos.y).1)
    (tInit tm pos.y dy (tm.tile_coord pos.x pos.y).2)
    (tm.tile_coord pos.x pos.y).1 (tm.tile_coord pos.x pos.y).2 r
    ?_ ?_
    (by rw [tInit, dtInit]; by_cases hd : dx ≠ 0 <;> simp [hd])
    (by rw [tInit, dtInit]; by_cases hd : dy ≠ 0 <;> simp [hd])
    ?_ h
  · intro q hq
    rw [dtInit] at hq
    by_cases hd : dx ≠ 0
    swap
    · rw [if_neg hd] at hq; exact absurd hq (by simp)
    rw [if_pos hd] at hq
    injection hq with hq
    subst hq
    by_cases hdx : 0 < dx
    · refine ⟨1, ?_⟩
      rw [abs_of_pos hdx]
      push_cast
      field_simp
    · have hd' : dx < 0 := lt_of_le_of_ne (not_lt.1 hdx) hd
      refine ⟨-1, ?_⟩
      rw [abs_of_neg hd']
      push_cast
      field_simp
      rw [div_neg, mul_div_assoc, div_self hd, mul_one]
  · intro q hq
    rw [dtInit] at hq
    by_cases hd : dy ≠ 0
    swap
    · rw [if_neg hd] at hq; exact absurd hq (by simp)
    rw [if_pos hd] at hq
    injection hq with hq
    subst hq
    by_cases hdy : 0 < dy
    · refine ⟨1, ?_⟩
      rw [abs_of_pos hdy]
      push_cast
      field_simp
    · have hd' : dy < 0 := lt_of_le_of_ne (not_lt.1 hdy) hd
      refine ⟨-1, ?_⟩
      rw [abs_of_neg hd']
      push_cast
      field_simp
      rw [div_neg, mul_div_assoc, div_self hd, mul_one]
  · intro tv htv
    rw [tInit] at htv
    by_cases hd : dx ≠ 0
    swap
    · rw [if_neg hd] at htv; exact absurd htv (by simp)
    rw [if_pos hd] at htv
    injection htv with htv
    subst htv
    refine ⟨(tm.tile_coord pos.x pos.y).1 + (if 0 < dx then 1 else 0), ?_⟩
    rw [div_mul_cancel₀ _ hd]
    push_cast
    ring
  · intro th hth
    rw [tInit] at hth
    by_cases hd : dy ≠ 0
    swap
    · rw [if_neg hd] at hth; exact absurd hth (by simp)
    rw [if_pos hd] at hth
    injection hth with hth
    subst hth
    refine ⟨(tm.tile_coord pos.x pos.y).2 + (if 0 < dy then 1 else 0), ?_⟩
    rw [div_mul_cancel₀ _ hd]
    push_cast
    ring
  · rintro ⟨hVn, hHn⟩
    rw [tInit] at hVn hHn
    by_cases hd : dx ≠ 0
    · rw [if_pos hd] at hVn; exact absurd hVn (by simp)
    by_cases hd' : dy ≠ 0
    · rw [if_pos hd'] at hHn; exact absurd hHn (by simp)
    exact hnz ⟨by simpa using hd, by simpa using hd'⟩

theorem exists_nat_bound (m a d : ℚ) (hd : 0 < d) : ∃ n : ℕ, m ≤ a + n * d := by
  obtain ⟨n, hn⟩ := exists_nat_ge ((m - a) / d)
  refine ⟨n, ?_⟩
  rw [div_le_iff hd] at hn
  linarith

/-- With the vertical axis disabled (`t_v = +inf`), every iteration is a
horizontal step advancing `t` by exactly `dt_h`, so fuel `n + 2` suffices
once `max_distance ≤ t_h + n * dt_h`: the loop reaches a hit or the
`t < max_distance` exit, never the fuel marker. -/
theorem raycastAux_terminates_V_inf (tm : TileMap) (pos : Vec2) (dx dy angle : ℚ)
    (stepX stepY : ℤ) (dtV : Option ℚ) (dq : ℚ) :
    ∀ (n : ℕ) (t : Option ℚ) (th : ℚ) (mapX mapY : ℤ),
    tm.max_distance ≤ th + n * dq →
    raycastAux tm pos dx dy angle stepX stepY dtV (some dq) (n + 2) t none (some th)
      mapX mapY ≠ RayResult.timeout := by
  intro n
  induction n with
  | zero =>
    intro t th mapX mapY hb
    rw [show (0 : ℕ) + 2 = 1 + 1 from rfl, raycastAux]
    by_cases h1 : infLtQ t tm.max_distance
    swap
    · rw [if_neg h1]
      simp
    rw [if_pos h1]
    have hv : infLt none (some th) = false := rfl
    simp only [hv, Bool.false_eq_true, reduceIte]
    by_cases h3 : tm.is_obstacle mapX (mapY + stepY)
    · simp only [h3, if_pos]
      simp
    · simp only [h3, Bool.false_eq_true, reduceIte]
      rw [show (1 : ℕ) = 0 + 1 from rfl, raycastAux]
      have h2 : ¬(infLtQ (some th) tm.max_distance = true) := by
        simp only [infLtQ, decide_eq_true_eq]
        push_cast at hb
        linarith
      rw [if_neg h2]
      simp
  | succ n ih =>
    intro t th mapX mapY hb
    rw [show n + 1 + 2 = (n + 2) + 1 from rfl, raycastAux]
    by_cases h1 : infLtQ t tm.max_distance
    swap
    · rw [if_neg h1]
      simp
    rw [if_pos h1]
    have hv : infLt none (some th) = false := rfl
    simp only [hv, Bool.false_eq_true, reduceIte]
    by_cases h3 : tm.is_obstacle mapX (mapY + stepY)
    · simp only [h3, if_pos]
      simp
    · simp only [h3, Bool.false_eq_true, reduceIte]
      have e : infAdd (some th) (some dq) = some (th + dq) := rfl
      rw [e]
      refine ih (some th) (th + dq) mapX (mapY + stepY) ?_
      push_cast at hb ⊢
      linarith

/-- Mirror image of `raycastAux_terminates_V_inf` for a disabled horizontal
axis (`t_h = +inf`, finite vertical parameters). -/
theorem raycastAux_terminates_H_inf (tm : TileMap) (pos : Vec2) (dx dy angle : ℚ)
    (stepX stepY : ℤ) (dqv : ℚ) (dtH : Option ℚ) :
    ∀ (n : ℕ) (t : Option ℚ) (tv : ℚ) (mapX mapY : ℤ),
    tm.max_distance ≤ tv + n * dqv →
    raycastAux tm pos dx dy angle stepX stepY (some dqv) dtH (n + 2) t (some tv) none
      mapX mapY ≠ RayResult.timeout := by
  intro n
  induction n with
  | zero =>
    intro t tv mapX mapY hb
    rw [show (0 : ℕ) + 2 = 1 + 1 from rfl, raycastAux]
    by_cases h1 : infLtQ t tm.max_distance
    swap
    · rw [if_neg h1]
      simp
    rw [if_pos h1]
    have hv : infLt (some tv) none = true := rfl
    simp only [hv, if_pos]
    by_cases h3 : tm.is_obstacle (mapX + stepX) mapY
    · simp only [h3, if_pos]
      simp
    · simp only [h3, Bool.false_eq_true, reduceIte]
      rw [show (1 : ℕ) = 0 + 1 from rfl, raycastAux]
      have h2 : ¬(infLtQ (some tv) tm.max_distance = true) := by
        simp only [infLtQ, decide_eq_true_eq]
        push_cast at hb
        linarith
      rw [if_neg h2]
      simp
  | succ n ih =>
    intro t tv mapX mapY hb
    rw [show n + 1 + 2 = (n + 2) + 1 from rfl, raycastAux]
    by_cases h1 : infLtQ t tm.max_distance
    swap
    · rw [if_neg h1]
      simp
    rw [if_pos h1]
    have hv : infLt (some tv) none = true := rfl
    simp only [hv, if_pos]
    by_cases h3 : tm.is_obstacle (mapX + stepX) mapY
    · simp only [h3, if_pos]
      simp
    · simp only [h3, Bool.false_eq_true, reduceIte]
      have e : infAdd (some tv) (some dqv) = some (tv + dqv) := rfl
      rw [e]
      refine ih (some tv) (tv + dqv) (mapX + stepX) mapY ?_
      push_cast at hb ⊢
      linarith

/-- With the vertical axis disabled, every step is horizontal: any hit has
an `UP`/`DOWN` side and its tile column never moves. -/
theorem raycastAux_V_inf_hit (tm : TileMap) (pos : Vec2) (dx dy angle : ℚ)
    (stepX stepY : ℤ) (dtV dtH : Option ℚ) :
    ∀ (fuel : ℕ) (t tH : Option ℚ) (mapX mapY : ℤ) (r : Ray),
    raycastAux tm pos dx dy angle stepX stepY dtV dtH fuel t none tH mapX mapY = .hit r →
    (r.side = .UP ∨ r.side = .DOWN) ∧ r.tile_x = mapX := by
  intro fuel
  induction fuel with
  | zero =>
    intro t tH mapX mapY r h
    exact absurd h (by simp [raycastAux])
  | succ fuel ih =>
    intro t tH mapX mapY r h
    rw [raycastAux] at h
    by_cases h1 : infLtQ t tm.max_distance
    swap
    · rw [if_neg h1] at h
      exact absurd h (by simp)
    rw [if_pos h1] at h
    have hv : infLt none tH = false := rfl
    simp only [hv, Bool.false_eq_true, reduceIte] at h
    by_cases h3 : tm.is_obstacle mapX (mapY + stepY)
    · simp only [h3, if_pos] at h
      cases h
      refine ⟨?_, rfl⟩
      by_cases hdy : 0 < dy <;> simp [hdy]
    · simp only [h3, Bool.false_eq_true, reduceIte] at h
      exact ih tH (infAdd tH dtH) mapX (mapY + stepY) r h

/-- With the horizontal axis disabled, every step is vertical: any hit has
a `LEFT`/`RIGHT` side and its tile row never moves. -/
theorem raycastAux_H_inf_hit (tm : TileMap) (pos : Vec2) (dx dy angle : ℚ)
    (stepX stepY : ℤ) (dqv : ℚ) (dtH : Option ℚ) :
    ∀ (fuel : ℕ) (t : Option ℚ) (tv : ℚ) (mapX mapY : ℤ) (r : Ray),
    raycastAux tm pos dx dy angle stepX stepY (some dqv) dtH fuel t (some tv) none
      mapX mapY = .hit r →
    (r.side = .LEFT ∨ r.side = .RIGHT) ∧ r.tile_y = mapY := by
  intro fuel
  induction fuel with
  | zero =>
    intro t tv mapX mapY r h
    exact absurd h (by simp [raycastAux])
  | succ fuel ih =>
    intro t tv mapX mapY r h
    rw [raycastAux] at h
    by_cases h1 : infLtQ t tm.max_distance
    swap
    · rw [if_neg h1] at h
      exact absurd h (by simp)
    rw [if_pos h1] at h
    have hv : infLt (some tv) none = true := rfl
    simp only [hv, if_pos] at h
    by_cases h3 : tm.is_obstacle (mapX + stepX) mapY
    · simp only [h3, if_pos] at h
      cases h
      refine ⟨?_, rfl⟩
      by_cases hdx : 0 < dx <;> simp [hdx]
    · simp only [h3, Bool.false_eq_true, reduceIte] at h
      have e : infAdd (some tv) (some dqv) = some (tv + dqv) := rfl
      rw [e] at h
      exact ih (some tv) (tv + dqv) (mapX + stepX) mapY r h

/-- C4: a zero direction component yields the infinity sentinels
`t = dt = +inf` for that axis (the guarded setup performs no division),
stepping degenerates to the single crossing axis (hit side and tile index
of the dead axis are fixed), and the traversal still terminates: with
enough fuel the result is a miss at `max_distance` or a hit, never the
fuel marker. -/
theorem claim_C4 (tm : TileMap) (pos : Vec2) (dx dy angle : ℚ)
    (hs : 0 < tm.size)
    (hz : (dx = 0 ∧ dy ≠ 0) ∨ (dy = 0 ∧ dx ≠ 0)) :
    (dx = 0 → tInit tm pos.x dx (tm.tile_coord pos.x pos.y).1 = none ∧ dtInit tm dx = none) ∧
    (dy = 0 → tInit tm pos.y dy (tm.tile_coord pos.x pos.y).2 = none ∧ dtInit tm dy = none) ∧
    (∃ fuel, raycast tm pos dx dy angle fuel ≠ .timeout) ∧
    (∀ fuel r, raycast tm pos dx dy angle fuel = .hit r →
      (dx = 0 → (r.side = .UP ∨ r.side = .DOWN) ∧ r.tile_x = (tm.tile_coord pos.x pos.y).1) ∧
      (dy = 0 → (r.side = .LEFT ∨ r.side = .RIGHT) ∧ r.tile_y = (tm.tile_coord pos.x pos.y).2)) := by
  refine ⟨?_, ?_, ?_, ?_⟩
  · intro h0
    rw [tInit, dtInit]
    simp [h0]
  · intro h0
    rw [tInit, dtInit]
    simp [h0]
  · rcases hz with ⟨hdx0, hdy⟩ | ⟨hdy0, hdx⟩
    · subst hdx0
      have hdq : 0 < tm.size / |dy| := div_pos hs (abs_pos.2 hdy)
      obtain ⟨n, hn⟩ := exists_nat_bound tm.max_distance
        ((((tm.tile_coord pos.x pos.y).2 + if 0 < dy then (1 : ℤ) else 0) * tm.size - pos.y) / dy)
        (tm.size / |dy|) hdq
      refine ⟨n + 2, ?_⟩
      rw [raycast]
      rw [show tInit tm pos.x 0 (tm.tile_coord pos.x pos.y).1 = none by simp [tInit]]
      rw [show tInit tm pos.y dy (tm.tile_coord pos.x pos.y).2 =
        some ((((tm.tile_coord pos.x pos.y).2 + if 0 < dy then (1 : ℤ) else 0) * tm.size - pos.y) / dy)
        from by rw [tInit, if_pos hdy]]
      rw [show dtInit tm dy = some (tm.size / |dy|) from by rw [dtInit, if_pos hdy]]
      exact raycastAux_terminates_V_inf tm pos 0 dy angle _ _ (dtInit tm 0) (tm.size / |dy|)
        n (some 0) _ _ _ hn
    · subst hdy0
      have hdq : 0 < tm.size / |dx| := div_pos hs (abs_pos.2 hdx)
      obtain ⟨n, hn⟩ := exists_nat_bound tm.max_distance
        ((((tm.tile_coord pos.x pos.y).1 + if 0 < dx then (1 : ℤ) else 0) * tm.size - pos.x) / dx)
        (tm.size / |dx|) hdq
      refine ⟨n + 2, ?_⟩
      rw [raycast]
      rw [show tInit tm pos.y 0 (tm.tile_coord pos.x pos.y).2 = none by simp [tInit]]
      rw [show tInit tm pos.x dx (tm.tile_coord pos.x pos.y).1 =
        some ((((tm.tile_coord pos.x pos.y).1 + if 0 < dx then (1 : ℤ) else 0) * tm.size - pos.x) / dx)
        from by rw [tInit, if_pos hdx]]
      rw [show dtInit tm dx = some (tm.size / |dx|) from by rw [dtInit, if_pos hdx]]
      exact raycastAux_terminates_H_inf tm pos dx 0 angle _ _ (tm.size / |dx|) (dtInit tm 0)
        n (some 0) _ _ _ hn
  · intro fuel r h
    constructor
    · intro h0
      subst h0
      rw [raycast] at h
      rw [show tInit tm pos.x 0 (tm.tile_coord pos.x pos.y).1 = none by simp [tInit]] at h
      exact raycastAux_V_inf_hit tm pos 0 dy angle _ _ _ _ fuel (some 0) _ _ _ r h
    · intro h0
      subst h0
      rcases hz with ⟨hdx0, hdy⟩ | ⟨hdy0, hdx⟩
      · exact absurd rfl hdy
      · rw [raycast] at h
        rw [show tInit tm pos.y 0 (tm.tile_coord pos.x pos.y).2 = none by simp [tInit]] at h
        rw [show tInit tm pos.x dx (tm.tile_coord pos.x pos.y).1 =
          some ((((tm.tile_coord pos.x pos.y).1 + if 0 < dx then (1 : ℤ) else 0) * tm.size - pos.x) / dx)
          from by rw [tInit, if_pos hdx]] at h
        rw [show dtInit tm dx = some (tm.size / |dx|) from by rw [dtInit, if_pos hdx]] at h
        exact raycastAux_H_inf_hit tm pos dx 0 angle _ _ (tm.size / |dx|) (dtInit tm 0)
          fuel (some 0) _ _ _ r h

/-- Witness for C4: a straight-down ray (`dx = 0`, `dy = 1`) on the 3x3
grid terminates without dividing by zero. -/
theorem claim_C4_witness :
    ∃ fuel, raycast tmW ⟨48, 48⟩ 0 1 0 fuel ≠ .timeout :=
  (claim_C4 tmW ⟨48, 48⟩ 0 1 0 (by decide) (Or.inl ⟨rfl, by decide⟩)).2.2.1

/-- Witness for C10: the concrete `LEFT`-side hit at `x = 64 = 2 * 32`. -/
theorem claim_C10_witness :
    (((Ray.mk ⟨64, 48⟩ 2 1 0 .LEFT).side = .LEFT ∨
      (Ray.mk ⟨64, 48⟩ 2 1 0 .LEFT).side = .RIGHT) →
      ∃ m : ℤ, (Ray.mk ⟨64, 48⟩ 2 1 0 .LEFT).hit.x = m * tmW.size) ∧
    (((Ray.mk ⟨64, 48⟩ 2 1 0 .LEFT).side = .UP ∨
      (Ray.mk ⟨64, 48⟩ 2 1 0 .LEFT).side = .DOWN) →
      ∃ m : ℤ, (Ray.mk ⟨64, 48⟩ 2 1 0 .LEFT).hit.y = m * tmW.size) :=
  claim_C10 tmW ⟨48, 48⟩ 1 0 0 10 ⟨⟨64, 48⟩, 2, 1, 0, .LEFT⟩ (by decide) (by decide)

end Raycasting
